import Mathlib

/-!
# Verification of the watcher event-consolidation pipeline

A shallow embedding of the event-consolidation pipeline of the watcher
repository (Go).  Time is discrete (Nat timestamps); each concurrent stage
of the pipeline is embedded as a pure function that processes the ordered
list of its timestamped input messages and returns the ordered list of its
output messages.

Timer model.  Every stage blocks on a select between its input channel and
its timer channel.  We use the deterministic schedule in which a timer whose
deadline lies strictly before the timestamp of the next input message is
delivered before that message (its deadline has already passed), and a timer
whose deadline equals the next message's timestamp is delivered after it
(the select race at an exact tie is resolved in favour of the message; all
the theorems below that depend on timing keep the two strictly apart).
Each run function takes a `fireAtEnd` flag describing when the input channel
is closed relative to the last pending timer: `true` models the quiescent
run in which every armed timer fires before the channel closes; `false`
models a shutdown arriving before the pending timer fires, exactly as the
Go code behaves when the input channel is closed (the goroutine returns at
once, discarding pending state).
-/

namespace Watcher

/-- Filenames, as in the Go sources (type Filename string). -/
abbrev Filename := String

/-! ## Event masks (watcher.go lines 25-52, part_003 lines 24-51) -/

/-- EventMask is a uint32 bit set; we model it as a Nat used as a bit set. -/
abbrev EventMask := Nat

def EventCreate : EventMask := 1
def EventModify : EventMask := 2
def EventRename : EventMask := 4
def EventDelete : EventMask := 8
def EventAttrib : EventMask := 16

/-- fsnotify ev.IsCreate, modelled as the Create bit of the event's kind set. -/
def isCreate (m : EventMask) : Bool := m &&& EventCreate != 0

/-- fsnotify ev.IsModify, modelled as the Modify bit of the event's kind set. -/
def isModify (m : EventMask) : Bool := m &&& EventModify != 0

/-! ## Per-path debounce unit

make_filechan (watcher.go lines 88-109) and make_handler (part_003 lines
155-176): a goroutine owning one timer, looping on a select between its
input channel and the timer.  A ping resets the timer to latency from the
ping; a timer expiry emits the settled notification (the timer then stays
quiet until the next ping re-arms it).  State: the armed deadline, or none
when the timer is not running.  In both Go variants the unit is created on
the first event for its path with the timer armed at creation + latency, so
the first event arms the timer exactly like every later event does. -/

/-- The per-path debounce loop over one path's ping times, given the current
timer state (some deadline, or none).  Emits the list of settle times.
The final armed timer fires at quiescence (the unit is only torn down at
shutdown, long after). -/
def drun (latency : Nat) : Option Nat → List Nat → List Nat
  | some d, [] => [d]
  | none, [] => []
  | some d, t :: ts =>
      if d < t then d :: drun latency (some (t + latency)) ts
      else drun latency (some (t + latency)) ts
  | none, t :: ts => drun latency (some (t + latency)) ts

/-- Settle times of one debounce unit fed the given ping times, starting idle. -/
def debounce (latency : Nat) (ts : List Nat) : List Nat := drun latency none ts

/-- A burst hypothesis: ping times are nondecreasing and consecutive pings are
separated by less than the latency. -/
def Burst (latency : Nat) (ts : List Nat) : Prop :=
  List.Chain' (fun a b => a ≤ b ∧ b < a + latency) ts

theorem drun_burst (latency : Nat) :
    ∀ (ts : List Nat) (t : Nat), Burst latency (t :: ts) →
      drun latency (some (t + latency)) ts = [ts.getLastD t + latency] := by
  intro ts
  induction ts with
  | nil => intro t _; rfl
  | cons t' ts' ih =>
    intro t h
    rw [Burst, List.chain'_cons] at h
    obtain ⟨⟨hle, hlt⟩, h'⟩ := h
    have hnf : ¬ (t + latency < t') := by omega
    simp only [drun, if_neg hnf, List.getLastD_cons]
    exact ih t' h'

/-! ## Batch accumulator (make_accumulator, watcher.go lines 178-232)

One goroutine owning the shared window timer (created stopped), a map
is_changed recording which filenames are pending (modelled by its key list)
and the slice filenames in first-arrival order.  On a settled filename:
insert if absent, then Reset the timer to latency from now.  On timer
expiry: report the batch and clear both structures. -/

/-- AccumulatorState: the Go map is_changed (modelled as its key list), the
filenames slice, and the shared window timer (armed deadline or stopped). -/
structure AccumState where
  is_changed : List Filename
  filenames : List Filename
  deadline : Option Nat

/-- The body of the accumulator's input case: dedup-insert the filename,
then re-arm the shared window timer for latency from the event time. -/
def accumEvent (latency : Nat) (st : AccumState) (t : Nat) (f : Filename) : AccumState :=
  if f ∈ st.is_changed then
    { st with deadline := some (t + latency) }
  else
    { is_changed := f :: st.is_changed,
      filenames := st.filenames ++ [f],
      deadline := some (t + latency) }

/-- The accumulator loop over timestamped settled events.  Output: the list
of flushed batches, each tagged with the instant the window timer expired.
A deadline that has passed when the next event arrives fires first (flush,
clear, timer consumed), and the event then starts a fresh batch. -/
def accumGo (latency : Nat) (fireAtEnd : Bool) (st : AccumState) :
    List (Nat × Filename) → List (Nat × List Filename)
  | [] =>
    match st.deadline with
    | some d => if fireAtEnd then [(d, st.filenames)] else []
    | none => []
  | (t, f) :: rest =>
    match st.deadline with
    | some d =>
      if d < t then
        (d, st.filenames) ::
          accumGo latency fireAtEnd (accumEvent latency ⟨[], [], none⟩ t f) rest
      else accumGo latency fireAtEnd (accumEvent latency st t f) rest
    | none => accumGo latency fireAtEnd (accumEvent latency st t f) rest

/-- Quiescent run of the accumulator: start empty with the timer stopped
(timer.Stop() right after creation); the final armed window expires. -/
def accumRun (latency : Nat) (evs : List (Nat × Filename)) : List (Nat × List Filename) :=
  accumGo latency true ⟨[], [], none⟩ evs

/-- Shutdown run of the accumulator: the channel feeding it is closed before
the pending window expires, so the goroutine returns and the pending partial
batch is discarded (no final flush). -/
def accumShutdownRun (latency : Nat) (evs : List (Nat × Filename)) :
    List (Nat × List Filename) :=
  accumGo latency false ⟨[], [], none⟩ evs

/-! ## Grouping streamer (group, part_003 lines 178-211)

Single-slot prior buffer (eventprior + haveprior) and the shared window
timer (created stopped).  On an event: emit the buffered prior un-flagged,
buffer the new event, re-arm the timer.  On timer expiry: emit the buffered
prior flagged Settled and clear the buffer.  Emission = (filename, Settled
flag).  The Go loop emits eventprior at expiry whether or not haveprior is
set (haveprior only guards the un-flagged emission); the model keeps the
zero-value eventprior (the empty string) so this is visible. -/

def groupGo (latency : Nat) (fireAtEnd : Bool) (prior : Filename) (haveprior : Bool)
    (deadline : Option Nat) : List (Nat × Filename) → List (Filename × Bool)
  | [] =>
    match deadline with
    | some _ => if fireAtEnd then [(prior, true)] else []
    | none => []
  | (t, f) :: rest =>
    match deadline with
    | some d =>
      if d < t then
        (prior, true) :: groupGo latency fireAtEnd f true (some (t + latency)) rest
      else
        (if haveprior then [(prior, false)] else []) ++
          groupGo latency fireAtEnd f true (some (t + latency)) rest
    | none =>
      (if haveprior then [(prior, false)] else []) ++
        groupGo latency fireAtEnd f true (some (t + latency)) rest

/-- Quiescent run of the grouping streamer from its initial state (zero-value
prior, haveprior false, timer stopped); the final armed timer expires. -/
def groupRun (latency : Nat) (evs : List (Nat × Filename)) : List (Filename × Bool) :=
  groupGo latency true "" false none evs

/-- Shutdown run of the grouping streamer: its input closes before the
pending timer fires, so the buffered prior is discarded. -/
def groupShutdownRun (latency : Nat) (evs : List (Nat × Filename)) : List (Filename × Bool) :=
  groupGo latency false "" false none evs

/-- Split a grouped emission stream into its batches: each boundary-flagged
emission ends a batch (spec-side view of the Settled flag). -/
def segGo (cur : List Filename) : List (Filename × Bool) → List (List Filename)
  | [] => []
  | e :: rest => if e.2 then (cur ++ [e.1]) :: segGo [] rest else segGo (cur ++ [e.1]) rest

/-- The list of path groups between consecutive boundary flags. -/
def groupSegments (l : List (Filename × Bool)) : List (List Filename) :=
  segGo [] l

/-! ## Spec-side reference: accumulation windows

Modelled from the spec (4.4): the partition of a settled-event stream into
accumulation windows - a settle that arrives before the shared deadline
expires joins the current window and pushes the deadline to latency after
itself; otherwise the window closes at its deadline and a new one starts.
Paths are kept in arrival order with duplicates (no dedup here). -/

def windowsGo (latency d : Nat) (cur : List Filename) :
    List (Nat × Filename) → List (Nat × List Filename)
  | [] => [(d, cur)]
  | (t, f) :: rest =>
    if d < t then (d, cur) :: windowsGo latency (t + latency) [f] rest
    else windowsGo latency (t + latency) (cur ++ [f]) rest

/-- The accumulation windows of a settled-event stream (spec-side). -/
def windows (latency : Nat) : List (Nat × Filename) → List (Nat × List Filename)
  | [] => []
  | (t, f) :: rest => windowsGo latency (t + latency) [f] rest

/-- Keep the first occurrence of each path, in order (spec-side view of the
dedup the accumulator performs with its membership map). -/
def dedupFirstAux (acc : List Filename) : List Filename → List Filename
  | [] => acc
  | f :: rest =>
    if f ∈ acc then dedupFirstAux acc rest else dedupFirstAux (acc ++ [f]) rest

def dedupFirst (l : List Filename) : List Filename := dedupFirstAux [] l

/-! ## Per-path dispatch (Watchdirs, watcher.go lines 134-161; simplify,
part_003 lines 126-150)

The dispatch stage keeps a map from filename to its debounce unit, creates
a unit on the first event for a path and delivers each event only to the
unit keyed by the event's own path.  A unit is created with its timer armed
at creation + latency and an event delivery resets it to latency after the
event, so existing-or-created both leave the unit armed at t + latency.
The map is modelled as an association list from filename to the unit's
timer state; the deterministic schedule delivers every expiry whose
deadline lies strictly before the next event before that event. -/

/-- Look a path up in the handler map: the timer state of its debounce unit
(none when no unit exists yet or its timer is idle - an idle unit and a
missing one react identically to delivery, expiry and teardown). -/
def lookupH : List (Filename × Option Nat) → Filename → Option Nat
  | [], _ => none
  | (q, s) :: rest, p => if q = p then s else lookupH rest p

/-- Write a path's debounce-unit timer state into the handler map (insert on
first event for the path, update afterwards). -/
def setH : List (Filename × Option Nat) → Filename → Option Nat → List (Filename × Option Nat)
  | [], p, s => [(p, s)]
  | (q, r) :: rest, p, s =>
    if q = p then (q, s) :: rest else (q, r) :: setH rest p s

/-- Deliver every timer expiry whose deadline lies strictly before time t:
the handler map afterwards - each unit whose armed deadline has passed goes
idle until the next delivery re-arms it. -/
def fireAllH (t : Nat) : List (Filename × Option Nat) → List (Filename × Option Nat)
  | [] => []
  | (q, some d) :: rest =>
    (q, if d < t then none else some d) :: fireAllH t rest
  | (q, none) :: rest => (q, none) :: fireAllH t rest

/-- The settled notifications those expiries emit, each at its own unit's
deadline. -/
def fireAllE (t : Nat) : List (Filename × Option Nat) → List (Nat × Filename)
  | [] => []
  | (q, some d) :: rest =>
    (if d < t then [(d, q)] else []) ++ fireAllE t rest
  | (_, none) :: rest => fireAllE t rest

/-- At quiescence every still-armed unit's timer expires: the pending settle
of each armed unit, at its deadline. -/
def flushH (hs : List (Filename × Option Nat)) : List (Nat × Filename) :=
  hs.filterMap (fun h => h.2.map (fun d => (d, h.1)))

/-- The dispatch loop over raw events (time, path): expiries due strictly
before each event are delivered first, then the event goes to its own
path's unit, arming that unit at t + latency.  Output: the settled
notifications (settle time, path). -/
def simplifyGo (latency : Nat) (fireAtEnd : Bool) (hs : List (Filename × Option Nat)) :
    List (Nat × Filename) → List (Nat × Filename)
  | [] => if fireAtEnd then flushH hs else []
  | (t, f) :: rest =>
    fireAllE t hs ++
      simplifyGo latency fireAtEnd (setH (fireAllH t hs) f (some (t + latency))) rest

/-- Quiescent run of the per-path debounce stage from an empty handler map. -/
def simplifyRun (latency : Nat) (evs : List (Nat × Filename)) : List (Nat × Filename) :=
  simplifyGo latency true [] evs

/-- Shutdown run: on the quit signal every live unit is closed (and its
acknowledgment awaited) before its pending timer fires, so pending settles
are discarded and nothing is emitted after shutdown. -/
def simplifyShutdownRun (latency : Nat) (evs : List (Nat × Filename)) : List (Nat × Filename) :=
  simplifyGo latency false [] evs

/-! ## Kind filtering ahead of the debouncer

watcher.go Watchdirs lines 139-161: an event reaches the per-path channels
only under the guard ev.IsCreate() || ev.IsModify(), and then only when it
does not match the exclusion pattern.  part_003 watch lines 237-272: the
event is dropped when it matches the exclusion pattern, and is otherwise
forwarded whatever its kind set; part_003 simplify feeds every forwarded
event to a per-path handler. -/

/-- Whether watcher.go's Watchdirs forwards an event with the given kind set
into the per-path debouncer (excluded: the exclusion pattern matched). -/
def wdForwards (excluded : Bool) (m : EventMask) : Bool :=
  (isCreate m || isModify m) && !excluded

/-- Whether part_003's watch forwards an event with the given kind set into
the pipeline (and hence, via simplify, into the per-path debouncer). -/
def watchForwards (excluded : Bool) (_m : EventMask) : Bool :=
  !excluded

/-! ## Watch registration (watcher.go lines 115-129; part_003 lines 218-232)

For each directory in turn the fsnotify watch is registered; on error the
error is logged, and if its message contains "too many open files" the
whole pipeline terminates fatally (log.Fatal resp. log.Panic), otherwise
the loop continues with the next directory. -/

/-- Go strings.Contains, on the underlying character lists. -/
def strContains (s pat : String) : Bool :=
  s.toList.tails.any (fun suf => pat.toList.isPrefixOf suf)

/-- The error-message fragment watcher.go tests for resource exhaustion. -/
def tooManyOpenFiles : String := "too many open files"

/-- The registration loop, given the registration outcome for each directory
(none: success; some msg: the notifier rejected the watch with msg).
Returns some d when registration dies fatally at directory d, none when the
pipeline goes on to run (errors merely logged). -/
def registerAll (errOf : String → Option String) : List String → Option String
  | [] => none
  | d :: rest =>
    match errOf d with
    | none => registerAll errOf rest
    | some msg =>
      if strContains msg tooManyOpenFiles then some d else registerAll errOf rest

/-! ## Theorems -/

/-- C1: for every path that receives N >= 1 raw events, nondecreasing in time
and each separated from the next by less than the latency, the per-path
debounce unit emits exactly one settled notification, and it is emitted
exactly latency after the last event of the burst (hence no earlier than
latency after it). -/
theorem debounce_burst_single_settle (latency t : Nat) (ts : List Nat)
    (h : Burst latency (t :: ts)) :
    debounce latency (t :: ts) = [ts.getLastD t + latency] := by
  rw [show debounce latency (t :: ts) = drun latency (some (t + latency)) ts from rfl]
  exact drun_burst latency ts t h

theorem debounce_burst_single_settle_witness :
    debounce 10 [0, 5, 9] = [9 + 10] := by
  have h := debounce_burst_single_settle 10 0 [5, 9] (by simp [Burst, List.chain'_cons])
  simpa using h

/-! ### Helper lemmas: first-occurrence dedup -/

theorem mem_dedupFirstAux (g : Filename) :
    ∀ (l acc : List Filename), g ∈ dedupFirstAux acc l ↔ g ∈ acc ∨ g ∈ l := by
  intro l
  induction l with
  | nil => intro acc; simp [dedupFirstAux]
  | cons f rest ih =>
    intro acc
    by_cases hf : f ∈ acc
    · rw [dedupFirstAux, if_pos hf, ih]
      simp only [List.mem_cons]
      constructor
      · rintro (h | h)
        · exact Or.inl h
        · exact Or.inr (Or.inr h)
      · rintro (h | h | h)
        · exact Or.inl h
        · exact Or.inl (by rwa [h])
        · exact Or.inr h
    · rw [dedupFirstAux, if_neg hf, ih]
      simp only [List.mem_append, List.mem_singleton, List.mem_cons]
      tauto

theorem mem_dedupFirst (g : Filename) (l : List Filename) :
    g ∈ dedupFirst l ↔ g ∈ l := by
  rw [dedupFirst, mem_dedupFirstAux]
  simp

theorem dedupFirstAux_append (f : Filename) :
    ∀ (l acc : List Filename),
      dedupFirstAux acc (l ++ [f]) =
        if f ∈ dedupFirstAux acc l then dedupFirstAux acc l
        else dedupFirstAux acc l ++ [f] := by
  intro l
  induction l with
  | nil => intro acc; simp [dedupFirstAux]
  | cons x rest ih =>
    intro acc
    by_cases hx : x ∈ acc
    · simp only [List.cons_append, dedupFirstAux, if_pos hx]
      exact ih acc
    · simp only [List.cons_append, dedupFirstAux, if_neg hx]
      exact ih (acc ++ [x])

theorem dedupFirst_append (l : List Filename) (f : Filename) :
    dedupFirst (l ++ [f]) =
      if f ∈ dedupFirst l then dedupFirst l else dedupFirst l ++ [f] :=
  dedupFirstAux_append f l []

theorem nodup_dedupFirstAux :
    ∀ (l acc : List Filename), acc.Nodup → (dedupFirstAux acc l).Nodup := by
  intro l
  induction l with
  | nil => intro acc h; exact h
  | cons f rest ih =>
    intro acc h
    by_cases hf : f ∈ acc
    · rw [dedupFirstAux, if_pos hf]; exact ih acc h
    · rw [dedupFirstAux, if_neg hf]
      exact ih _ (by simp [List.nodup_append, h, hf])

theorem nodup_dedupFirst (l : List Filename) : (dedupFirst l).Nodup :=
  nodup_dedupFirstAux l [] List.nodup_nil

/-! ### Helper lemmas: the accumulator refines the spec-side windows -/

theorem accumGo_eq_windowsGo (latency : Nat) :
    ∀ (evs : List (Nat × Filename)) (d : Nat) (cur : List Filename) (st : AccumState),
      st.deadline = some d →
      st.filenames = dedupFirst cur →
      (∀ g, g ∈ st.is_changed ↔ g ∈ st.filenames) →
      accumGo latency true st evs
        = (windowsGo latency d cur evs).map (fun w => (w.1, dedupFirst w.2)) := by
  intro evs
  induction evs with
  | nil =>
    intro d cur st hd hf _
    simp [accumGo, windowsGo, hd, hf]
  | cons e rest ih =>
    obtain ⟨t, f⟩ := e
    intro d cur st hd hf hic
    obtain ⟨ic, fn, dl⟩ := st
    simp only at hd hf hic
    subst hd
    by_cases hdt : d < t
    · simp only [accumGo, windowsGo, if_pos hdt, List.map_cons]
      refine congrArg₂ _ (by rw [hf]) ?_
      refine ih (t + latency) [f] _ ?_ ?_ ?_
      · simp [accumEvent]
      · simp [accumEvent, dedupFirst, dedupFirstAux]
      · intro g; simp [accumEvent]
    · simp only [accumGo, windowsGo, if_neg hdt]
      refine ih (t + latency) (cur ++ [f]) _ ?_ ?_ ?_
      · by_cases hm : f ∈ ic <;> simp [accumEvent, hm]
      · by_cases hm : f ∈ ic
        · have hfd : f ∈ dedupFirst cur := by rw [← hf]; exact (hic f).mp hm
          simp [accumEvent, hm, dedupFirst_append, hfd, hf]
        · have hfd : f ∉ dedupFirst cur := by rw [← hf]; intro hc; exact hm ((hic f).mpr hc)
          simp [accumEvent, hm, dedupFirst_append, hfd, hf]
      · intro g
        by_cases hm : f ∈ ic
        · simpa [accumEvent, hm] using hic g
        · have h := hic g
          simp only [accumEvent, if_neg hm, List.mem_cons, List.mem_append,
            List.mem_singleton]
          tauto

theorem accumRun_eq_windows (latency : Nat) (evs : List (Nat × Filename)) :
    accumRun latency evs = (windows latency evs).map (fun w => (w.1, dedupFirst w.2)) := by
  cases evs with
  | nil => rfl
  | cons e rest =>
    obtain ⟨t, f⟩ := e
    rw [accumRun, windows]
    show accumGo latency true (accumEvent latency ⟨[], [], none⟩ t f) rest = _
    refine accumGo_eq_windowsGo latency rest (t + latency) [f] _ ?_ ?_ ?_
    · simp [accumEvent]
    · simp [accumEvent, dedupFirst, dedupFirstAux]
    · intro g; simp [accumEvent]

/-! ### Helper lemmas: the grouping streamer refines the spec-side windows -/

theorem segGo_groupGo (latency : Nat) :
    ∀ (evs : List (Nat × Filename)) (init : List Filename) (p : Filename) (d : Nat),
      segGo init (groupGo latency true p true (some d) evs)
        = (windowsGo latency d (init ++ [p]) evs).map (fun w => w.2) := by
  intro evs
  induction evs with
  | nil => intro init p d; simp [groupGo, segGo, windowsGo]
  | cons e rest ih =>
    obtain ⟨t, f⟩ := e
    intro init p d
    by_cases hdt : d < t
    · simp only [groupGo, windowsGo, if_pos hdt, List.map_cons]
      rw [show segGo init ((p, true) :: groupGo latency true f true (some (t + latency)) rest)
            = (init ++ [p]) :: segGo [] (groupGo latency true f true (some (t + latency)) rest)
          from rfl]
      rw [ih [] f (t + latency)]
      simp
    · simp only [groupGo, windowsGo, if_neg hdt, if_true, List.singleton_append]
      rw [show segGo init ((p, false) :: groupGo latency true f true (some (t + latency)) rest)
            = segGo (init ++ [p]) (groupGo latency true f true (some (t + latency)) rest)
          from rfl]
      rw [ih (init ++ [p]) f (t + latency)]

theorem groupSegments_eq_windows (latency : Nat) (evs : List (Nat × Filename)) :
    groupSegments (groupRun latency evs) = (windows latency evs).map (fun w => w.2) := by
  cases evs with
  | nil => rfl
  | cons e rest =>
    obtain ⟨t, f⟩ := e
    rw [groupRun, windows, groupSegments]
    show segGo [] (groupGo latency true f true (some (t + latency)) rest) = _
    simpa using segGo_groupGo latency rest [] f (t + latency)

/-- C2: for the same settled-event stream and the same latency, the groups of
paths the grouping streamer emits between consecutive boundary-flagged
events and the batches the accumulator flushes correspond one to one, and
corresponding group and batch hold the same set of paths (the accumulator's
batch is the first-occurrence dedup of the group). -/
theorem grouping_matches_accumulator (latency : Nat) (evs : List (Nat × Filename)) :
    (groupSegments (groupRun latency evs)).map List.toFinset
      = (accumRun latency evs).map (fun b => b.2.toFinset) := by
  rw [groupSegments_eq_windows, accumRun_eq_windows, List.map_map, List.map_map]
  have hfun : ((fun b : Nat × List Filename => b.2.toFinset) ∘
        (fun w : Nat × List Filename => (w.1, dedupFirst w.2)))
      = (List.toFinset ∘ fun w : Nat × List Filename => w.2) := by
    funext w
    show (dedupFirst w.2).toFinset = w.2.toFinset
    ext g
    simp [List.mem_toFinset, mem_dedupFirst]
  rw [hfun]

/-- C3: every batch the accumulator flushes contains each path at most once,
however many settled notifications for that path arrived in the window. -/
theorem accum_batches_nodup (latency : Nat) (evs : List (Nat × Filename)) :
    ∀ b ∈ accumRun latency evs, b.2.Nodup := by
  rw [accumRun_eq_windows]
  intro b hb
  rw [List.mem_map] at hb
  obtain ⟨w, -, rfl⟩ := hb
  exact nodup_dedupFirst w.2

theorem accum_batches_nodup_witness :
    ((6 : Nat), (["a"] : List Filename)).2.Nodup :=
  accum_batches_nodup 5 [(0, "a"), (1, "a")] ((6 : Nat), (["a"] : List Filename))
    (by decide)

/-- C4: the accumulator's run is exactly the spec-side accumulation windows
with each window's arrival-ordered path list deduplicated to its first
occurrences: within every flushed batch, paths appear in the order in which
they first settled during that window. -/
theorem accum_batches_first_arrival (latency : Nat) (evs : List (Nat × Filename)) :
    accumRun latency evs = (windows latency evs).map (fun w => (w.1, dedupFirst w.2)) :=
  accumRun_eq_windows latency evs

/-- Zero-latency helper: with latency zero every settled event closes its own
window at its own timestamp, provided event times strictly increase. -/
theorem accumGo_zero_latency :
    ∀ (evs : List (Nat × Filename)) (t : Nat) (f : Filename),
      List.Chain' (fun a b => a.1 < b.1) ((t, f) :: evs) →
      accumGo 0 true ⟨[f], [f], some (t + 0)⟩ evs
        = (t, [f]) :: evs.map (fun e => (e.1, [e.2])) := by
  intro evs
  induction evs with
  | nil => intro t f _; simp [accumGo]
  | cons e rest ih =>
    obtain ⟨t', f'⟩ := e
    intro t f h
    rw [List.chain'_cons] at h
    obtain ⟨hlt, h'⟩ := h
    have hdt : t + 0 < t' := by simpa using hlt
    simp only [accumGo, if_pos hdt, List.map_cons]
    refine congrArg₂ _ (by simp) ?_
    have hst : accumEvent 0 ⟨[], [], none⟩ t' f' = ⟨[f'], [f'], some (t' + 0)⟩ := by
      simp [accumEvent]
    rw [hst]
    exact ih t' f' h'

/-- C5: with latency configured as zero, accumulation is disabled entirely:
provided settled events arrive at strictly increasing instants, every
settled event becomes its own single-path batch and its window expires at
the event's own timestamp (no accumulation delay). -/
theorem zero_latency_single_batches (evs : List (Nat × Filename))
    (h : List.Chain' (fun a b => a.1 < b.1) evs) :
    accumRun 0 evs = evs.map (fun e => (e.1, [e.2])) := by
  cases evs with
  | nil => rfl
  | cons e rest =>
    obtain ⟨t, f⟩ := e
    rw [accumRun]
    show accumGo 0 true (accumEvent 0 ⟨[], [], none⟩ t f) rest = _
    have hst : accumEvent 0 ⟨[], [], none⟩ t f = ⟨[f], [f], some (t + 0)⟩ := by
      simp [accumEvent]
    rw [hst, accumGo_zero_latency rest t f h]
    simp

theorem zero_latency_single_batches_witness :
    accumRun 0 [(0, "a"), (1, "b")] = [(0, ["a"]), (1, ["b"])] := by
  have h := zero_latency_single_batches [(0, "a"), (1, "b")]
    (by simp [List.chain'_cons])
  simpa using h

/-! ### Helper lemmas: flushes only happen with content -/

theorem windowsGo_ne_nil (latency : Nat) :
    ∀ (evs : List (Nat × Filename)) (d : Nat) (cur : List Filename), cur ≠ [] →
      ∀ w ∈ windowsGo latency d cur evs, w.2 ≠ [] := by
  intro evs
  induction evs with
  | nil =>
    intro d cur hc w hw
    rw [windowsGo, List.mem_singleton] at hw
    rw [hw]
    exact hc
  | cons e rest ih =>
    obtain ⟨t, f⟩ := e
    intro d cur hc w hw
    by_cases hdt : d < t
    · rw [windowsGo, if_pos hdt, List.mem_cons] at hw
      rcases hw with hw | hw
      · rw [hw]; exact hc
      · exact ih (t + latency) [f] (by simp) w hw
    · rw [windowsGo, if_neg hdt] at hw
      exact ih (t + latency) (cur ++ [f]) (by simp) w hw

theorem dedupFirst_ne_nil (l : List Filename) (h : l ≠ []) : dedupFirst l ≠ [] := by
  obtain ⟨x, xs, rfl⟩ := List.exists_cons_of_ne_nil h
  exact List.ne_nil_of_mem ((mem_dedupFirst x _).mpr (List.mem_cons_self x xs))

theorem groupGo_mem_paths (latency : Nat) (S : List Filename) :
    ∀ (evs : List (Nat × Filename)) (p : Filename) (hp : Bool) (dl : Option Nat),
      (hp = true ∨ dl.isSome = true → p ∈ S) →
      (∀ e ∈ evs, e.2 ∈ S) →
      ∀ x ∈ groupGo latency true p hp dl evs, x.1 ∈ S := by
  intro evs
  induction evs with
  | nil =>
    intro p hp dl hpS _ x hx
    cases dl with
    | none => simp [groupGo] at hx
    | some d =>
      rw [groupGo] at hx
      simp only [if_true, List.mem_singleton] at hx
      rw [hx]
      exact hpS (Or.inr rfl)
  | cons e rest ih =>
    obtain ⟨t, f⟩ := e
    intro p hp dl hpS hev x hx
    have hfS : f ∈ S := hev (t, f) (List.mem_cons_self _ _)
    have hrest : ∀ e ∈ rest, e.2 ∈ S := fun e he => hev e (List.mem_cons_of_mem _ he)
    have htail : ∀ x ∈ groupGo latency true f true (some (t + latency)) rest, x.1 ∈ S :=
      ih f true (some (t + latency)) (fun _ => hfS) hrest
    have hemit : x ∈ (if hp then [(p, false)] else []) ++
        groupGo latency true f true (some (t + latency)) rest → x.1 ∈ S := by
      intro hx'
      rcases List.mem_append.mp hx' with h | h
      · cases hp with
        | true =>
          rw [if_pos rfl, List.mem_singleton] at h
          rw [h]
          exact hpS (Or.inl rfl)
        | false => simp at h
      · exact htail x h
    cases dl with
    | none =>
      rw [groupGo] at hx
      exact hemit hx
    | some d =>
      by_cases hdt : d < t
      · rw [groupGo, if_pos hdt, List.mem_cons] at hx
        rcases hx with hx | hx
        · rw [hx]; exact hpS (Or.inr rfl)
        · exact htail x hx
      · rw [groupGo, if_neg hdt] at hx
        exact hemit hx

/-- C10: a flush never reports an empty batch - the shared window timer is
created stopped and is only armed by a settled event, so every accumulator
batch holds at least one path; and every emission of the grouping streamer
(boundary-flagged ones included) carries a genuinely buffered path of the
input stream, never the unset zero-value buffer. -/
theorem batches_nonempty (latency : Nat) (evs : List (Nat × Filename)) :
    (∀ b ∈ accumRun latency evs, b.2 ≠ []) ∧
      (∀ x ∈ groupRun latency evs, x.1 ∈ evs.map (fun e => e.2)) := by
  constructor
  · rw [accumRun_eq_windows]
    intro b hb
    rw [List.mem_map] at hb
    obtain ⟨w, hw, rfl⟩ := hb
    refine dedupFirst_ne_nil w.2 ?_
    cases evs with
    | nil => simp [windows] at hw
    | cons e rest =>
      obtain ⟨t, f⟩ := e
      rw [windows] at hw
      exact windowsGo_ne_nil latency rest (t + latency) [f] (by simp) w hw
  · rw [groupRun]
    refine groupGo_mem_paths latency _ evs "" false none ?_ ?_
    · rintro (h | h) <;> simp at h
    · exact fun e he => List.mem_map_of_mem _ he

/-! ### Helper lemmas: shutdown -/

theorem dropLast_cons_ne_nil {α : Type} (a : α) {l : List α} (h : l ≠ []) :
    (a :: l).dropLast = a :: l.dropLast := by
  cases l with
  | nil => exact absurd rfl h
  | cons b m => rfl

theorem dropLast_append_ne_nil {α : Type} (l : List α) {m : List α} (h : m ≠ []) :
    (l ++ m).dropLast = l ++ m.dropLast := by
  induction l with
  | nil => rfl
  | cons a l ih =>
    rw [List.cons_append, dropLast_cons_ne_nil a
      (fun hc => h (List.append_eq_nil.mp hc).2), ih, List.cons_append]

theorem simplifyGo_sd_isPrefix (latency : Nat) :
    ∀ (evs : List (Nat × Filename)) (hs : List (Filename × Option Nat)),
      simplifyGo latency false hs evs <+: simplifyGo latency true hs evs := by
  intro evs
  induction evs with
  | nil => intro hs; exact ⟨flushH hs, rfl⟩
  | cons e rest ih =>
    obtain ⟨t, f⟩ := e
    intro hs
    obtain ⟨tl, htl⟩ := ih (setH (fireAllH t hs) f (some (t + latency)))
    refine ⟨tl, ?_⟩
    show (fireAllE t hs ++
        simplifyGo latency false (setH (fireAllH t hs) f (some (t + latency))) rest) ++ tl
      = fireAllE t hs ++
        simplifyGo latency true (setH (fireAllH t hs) f (some (t + latency))) rest
    rw [List.append_assoc, htl]

theorem accumGo_ne_nil (latency : Nat) :
    ∀ (evs : List (Nat × Filename)) (st : AccumState) (d : Nat),
      st.deadline = some d → accumGo latency true st evs ≠ [] := by
  intro evs
  induction evs with
  | nil => intro st d hd; simp [accumGo, hd]
  | cons e rest ih =>
    obtain ⟨t, f⟩ := e
    intro st d hd
    by_cases hdt : d < t
    · simp [accumGo, hd, if_pos hdt]
    · simp only [accumGo, hd, if_neg hdt]
      exact ih _ (t + latency) (by by_cases hm : f ∈ st.is_changed <;> simp [accumEvent, hm])

theorem accumGo_sd_dropLast (latency : Nat) :
    ∀ (evs : List (Nat × Filename)) (st : AccumState),
      accumGo latency false st evs = (accumGo latency true st evs).dropLast := by
  intro evs
  induction evs with
  | nil =>
    intro st
    cases hdl : st.deadline with
    | none => simp [accumGo, hdl]
    | some d => simp [accumGo, hdl]
  | cons e rest ih =>
    obtain ⟨t, f⟩ := e
    intro st
    cases hdl : st.deadline with
    | none => simp only [accumGo, hdl]; exact ih _
    | some d =>
      by_cases hdt : d < t
      · simp only [accumGo, hdl, if_pos hdt]
        rw [ih (accumEvent latency ⟨[], [], none⟩ t f),
          dropLast_cons_ne_nil _ (accumGo_ne_nil latency rest _ (t + latency)
            (by simp [accumEvent]))]
      · simp only [accumGo, hdl, if_neg hdt]
        exact ih _

theorem groupGo_ne_nil (latency : Nat) :
    ∀ (evs : List (Nat × Filename)) (p : Filename) (hp : Bool) (d : Nat),
      groupGo latency true p hp (some d) evs ≠ [] := by
  intro evs
  induction evs with
  | nil => intro p hp d; simp [groupGo]
  | cons e rest ih =>
    obtain ⟨t, f⟩ := e
    intro p hp d
    by_cases hdt : d < t
    · simp [groupGo, if_pos hdt]
    · simp only [groupGo, if_neg hdt]
      intro hc
      exact ih f true (t + latency) (List.append_eq_nil.mp hc).2

theorem groupGo_sd_dropLast (latency : Nat) :
    ∀ (evs : List (Nat × Filename)) (p : Filename) (hp : Bool) (dl : Option Nat),
      groupGo latency false p hp dl evs = (groupGo latency true p hp dl evs).dropLast := by
  intro evs
  induction evs with
  | nil =>
    intro p hp dl
    cases dl with
    | none => rfl
    | some d => rfl
  | cons e rest ih =>
    obtain ⟨t, f⟩ := e
    intro p hp dl
    cases dl with
    | none =>
      simp only [groupGo]
      rw [ih f true (some (t + latency)),
        dropLast_append_ne_nil _ (groupGo_ne_nil latency rest f true (t + latency))]
    | some d =>
      by_cases hdt : d < t
      · simp only [groupGo, if_pos hdt]
        rw [ih f true (some (t + latency)),
          dropLast_cons_ne_nil _ (groupGo_ne_nil latency rest f true (t + latency))]
      · simp only [groupGo, if_neg hdt]
        rw [ih f true (some (t + latency)),
          dropLast_append_ne_nil _ (groupGo_ne_nil latency rest f true (t + latency))]

/-- C8: on shutdown the debounce stage emits nothing beyond what it had
already emitted (every live unit is closed and acknowledged without a final
flush, so its output under shutdown is a prefix of its quiescent output),
and the accumulator and the grouping streamer, whose feeding channels are
then closed, terminate discarding the pending partial batch: each produces
exactly its quiescent output minus the final pending flush, so no settled
event or batch is emitted after shutdown completes. -/
theorem shutdown_discards_pending (latency : Nat) (evs : List (Nat × Filename)) :
    simplifyShutdownRun latency evs <+: simplifyRun latency evs ∧
      accumShutdownRun latency evs = (accumRun latency evs).dropLast ∧
      groupShutdownRun latency evs = (groupRun latency evs).dropLast :=
  ⟨simplifyGo_sd_isPrefix latency evs [],
   accumGo_sd_dropLast latency evs ⟨[], [], none⟩,
   groupGo_sd_dropLast latency evs "" false none⟩

/-- C9: the directory registration loop terminates fatally exactly when some
directory's watch registration fails with an error whose message indicates
resource exhaustion (contains "too many open files"); every other
registration failure is only logged and the loop continues, reaching the
pipeline. -/
theorem registration_fatal_iff_exhaustion (errOf : String → Option String)
    (dirs : List String) :
    registerAll errOf dirs = none ↔
      ∀ d ∈ dirs, ∀ msg, errOf d = some msg →
        strContains msg tooManyOpenFiles = false := by
  induction dirs with
  | nil => simp [registerAll]
  | cons d rest ih =>
    cases he : errOf d with
    | none =>
      rw [registerAll, he, ih]
      constructor
      · intro h d' hd' msg hmsg
        rcases List.mem_cons.mp hd' with rfl | hd'
        · rw [he] at hmsg; exact absurd hmsg (by simp)
        · exact h d' hd' msg hmsg
      · intro h d' hd' msg hmsg
        exact h d' (List.mem_cons_of_mem _ hd') msg hmsg
    | some msg =>
      rw [registerAll, he]
      show (if strContains msg tooManyOpenFiles = true then some d
          else registerAll errOf rest) = none ↔ _
      by_cases hc : strContains msg tooManyOpenFiles = true
      · rw [if_pos hc]
        constructor
        · intro h; exact absurd h (by simp)
        · intro h
          have hf := h d (List.mem_cons_self _ _) msg he
          rw [hc] at hf
          exact absurd hf (by simp)
      · rw [if_neg hc, ih]
        simp only [Bool.not_eq_true] at hc
        constructor
        · intro h d' hd' msg' hmsg
          rcases List.mem_cons.mp hd' with rfl | hd'
          · rw [he] at hmsg
            injection hmsg with hm
            rw [← hm]
            exact hc
          · exact h d' hd' msg' hmsg
        · intro h d' hd' msg' hmsg
          exact h d' (List.mem_cons_of_mem _ hd') msg' hmsg

/-- C7 is refuted on the part_003 variant: watch forwards a non-excluded
event whatever its kind set, so an event carrying only the Delete kind
reaches the per-path debouncer through simplify and produces a settled
report - here the debounce stage fed exactly that one event emits a settled
notification for it. -/
theorem kind_filter_counterexample :
    watchForwards false EventDelete = true ∧
      isCreate EventDelete = false ∧ isModify EventDelete = false ∧
      simplifyRun 10 [(0, "f")] = [(10, "f")] :=
  ⟨rfl, rfl, rfl, rfl⟩

/-- C7 (amended): in the watcher.go Watchdirs pipeline the claim holds: an
event is forwarded into the per-path debouncer only when its kind set
includes Create or Modify, and only when it does not match the exclusion
pattern.  (The part_003 variant instead forwards all kinds, see the
counterexample.) -/
theorem watchdirs_forwards_only_create_modify (excluded : Bool) (m : EventMask)
    (h : wdForwards excluded m = true) :
    (isCreate m || isModify m) = true ∧ excluded = false := by
  rw [wdForwards, Bool.and_eq_true, Bool.not_eq_true'] at h
  exact h

theorem watchdirs_forwards_only_create_modify_witness :
    (isCreate EventCreate || isModify EventCreate) = true ∧ false = false :=
  watchdirs_forwards_only_create_modify false EventCreate rfl

/-! ### Helper lemmas: the dispatch stage treats each path independently -/

theorem drun_fired (latency d t0 : Nat) (ts : List Nat)
    (hts : ∀ x ∈ ts, t0 ≤ x) (hd : d < t0) :
    drun latency (some d) ts = d :: drun latency none ts := by
  cases ts with
  | nil => rfl
  | cons t ts' =>
    have hlt : d < t := lt_of_lt_of_le hd (hts t (List.mem_cons_self _ _))
    rw [drun, if_pos hlt]
    rfl

theorem fireAllH_keys (t : Nat) :
    ∀ hs : List (Filename × Option Nat),
      (fireAllH t hs).map (fun h => h.1) = hs.map (fun h => h.1) := by
  intro hs
  induction hs with
  | nil => rfl
  | cons h rest ih =>
    obtain ⟨q, s⟩ := h
    cases s with
    | none => simp only [fireAllH, List.map_cons, ih]
    | some d => simp only [fireAllH, List.map_cons, ih]

theorem lookupH_fireAllH (t : Nat) (p : Filename) :
    ∀ hs : List (Filename × Option Nat),
      lookupH (fireAllH t hs) p
        = match lookupH hs p with
          | some d => if d < t then none else some d
          | none => none := by
  intro hs
  induction hs with
  | nil => rfl
  | cons h rest ih =>
    obtain ⟨q, s⟩ := h
    by_cases hqp : q = p
    · cases s with
      | none => simp [fireAllH, lookupH, hqp]
      | some d => simp [fireAllH, lookupH, hqp]
    · cases s with
      | none => simpa [fireAllH, lookupH, hqp] using ih
      | some d => simpa [fireAllH, lookupH, hqp] using ih

theorem fireAllE_not_mem (t : Nat) (p : Filename) :
    ∀ hs : List (Filename × Option Nat), p ∉ hs.map (fun h => h.1) →
      (fireAllE t hs).filter (fun e => e.2 = p) = [] := by
  intro hs
  induction hs with
  | nil => intro _; rfl
  | cons h rest ih
    =>
    obtain ⟨q, s⟩ := h
    intro hp
    rw [List.map_cons, List.mem_cons] at hp
    push_neg at hp
    obtain ⟨hqp, hrest⟩ := hp
    cases s with
    | none => exact ih hrest
    | some d =>
      rw [fireAllE, List.filter_append, ih hrest, List.append_nil]
      by_cases hdt : d < t
      · simp [if_pos hdt, Ne.symm hqp]
      · simp [if_neg hdt]

theorem fireAllE_filter (t : Nat) (p : Filename) :
    ∀ hs : List (Filename × Option Nat), (hs.map (fun h => h.1)).Nodup →
      ((fireAllE t hs).filter (fun e => e.2 = p)).map (fun e => e.1)
        = match lookupH hs p with
          | some d => if d < t then [d] else []
          | none => [] := by
  intro hs
  induction hs with
  | nil => intro _; rfl
  | cons h rest ih =>
    obtain ⟨q, s⟩ := h
    intro hnd
    rw [List.map_cons, List.nodup_cons] at hnd
    obtain ⟨hq, hrest⟩ := hnd
    by_cases hqp : q = p
    · subst hqp
      cases s with
      | none =>
        rw [show fireAllE t ((q, none) :: rest) = fireAllE t rest from rfl,
          fireAllE_not_mem t q rest hq]
        simp [lookupH]
      | some d =>
        rw [fireAllE, List.filter_append, fireAllE_not_mem t q rest hq,
          List.append_nil]
        by_cases hdt : d < t
        · simp [if_pos hdt, lookupH]
        · simp [if_neg hdt, lookupH]
    · cases s with
      | none =>
        rw [show fireAllE t ((q, none) :: rest) = fireAllE t rest from rfl, ih hrest]
        simp [lookupH, hqp]
      | some d =>
        rw [fireAllE, List.filter_append, List.map_append, ih hrest]
        have hdrop : ((if d < t then [(d, q)] else []).filter
            (fun e => e.2 = p)).map (fun e => e.1) = [] := by
          by_cases hdt : d < t
          · simp [if_pos hdt, hqp]
          · simp [if_neg hdt]
        rw [hdrop, List.nil_append]
        simp [lookupH, hqp]

theorem lookupH_setH_self (p : Filename) (s : Option Nat) :
    ∀ hs : List (Filename × Option Nat), lookupH (setH hs p s) p = s := by
  intro hs
  induction hs with
  | nil => simp [setH, lookupH]
  | cons h rest ih =>
    obtain ⟨q, r⟩ := h
    by_cases hqp : q = p
    · simp [setH, lookupH, hqp]
    · simp [setH, lookupH, hqp, ih]

theorem lookupH_setH_other (p g : Filename) (s : Option Nat) (hgp : g ≠ p) :
    ∀ hs : List (Filename × Option Nat), lookupH (setH hs p s) g = lookupH hs g := by
  have hpg : p ≠ g := fun h => hgp h.symm
  intro hs
  induction hs with
  | nil => simp [setH, lookupH, hpg]
  | cons h rest ih =>
    obtain ⟨q, r⟩ := h
    by_cases hqp : q = p
    · subst hqp
      simp [setH, lookupH, hpg]
    · simp [setH, lookupH, hqp, ih]

theorem setH_keys (p : Filename) (s : Option Nat) :
    ∀ hs : List (Filename × Option Nat),
      (setH hs p s).map (fun h => h.1)
        = if p ∈ hs.map (fun h => h.1) then hs.map (fun h => h.1)
          else hs.map (fun h => h.1) ++ [p] := by
  intro hs
  induction hs with
  | nil => simp [setH]
  | cons h rest ih =>
    obtain ⟨q, r⟩ := h
    by_cases hqp : q = p
    · simp [setH, hqp]
    · rw [show setH ((q, r) :: rest) p s = (q, r) :: setH rest p s by simp [setH, hqp]]
      rw [List.map_cons, ih, List.map_cons]
      by_cases hp : p ∈ rest.map (fun h => h.1)
      · simp [hp, Ne.symm hqp]
      · simp [hp, Ne.symm hqp]

theorem setH_keys_nodup (p : Filename) (s : Option Nat)
    (hs : List (Filename × Option Nat)) (hnd : (hs.map (fun h => h.1)).Nodup) :
    ((setH hs p s).map (fun h => h.1)).Nodup := by
  rw [setH_keys]
  by_cases hp : p ∈ hs.map (fun h => h.1)
  · rwa [if_pos hp]
  · rw [if_neg hp]
    simp [List.nodup_append, hnd, hp]

theorem flushH_not_mem (p : Filename) :
    ∀ hs : List (Filename × Option Nat), p ∉ hs.map (fun h => h.1) →
      (flushH hs).filter (fun e => e.2 = p) = [] := by
  intro hs
  induction hs with
  | nil => intro _; rfl
  | cons h rest ih =>
    obtain ⟨q, s⟩ := h
    intro hp
    rw [List.map_cons, List.mem_cons] at hp
    push_neg at hp
    obtain ⟨hqp, hrest⟩ := hp
    cases s with
    | none =>
      rw [show flushH ((q, none) :: rest) = flushH rest from rfl]
      exact ih hrest
    | some d =>
      rw [show flushH ((q, some d) :: rest) = (d, q) :: flushH rest from rfl,
        List.filter_cons]
      simp only [decide_eq_true_eq]
      rw [if_neg (by simpa using Ne.symm hqp)]
      exact ih hrest

theorem flushH_filter (p : Filename) :
    ∀ hs : List (Filename × Option Nat), (hs.map (fun h => h.1)).Nodup →
      ((flushH hs).filter (fun e => e.2 = p)).map (fun e => e.1)
        = match lookupH hs p with
          | some d => [d]
          | none => [] := by
  intro hs
  induction hs with
  | nil => intro _; rfl
  | cons h rest ih =>
    obtain ⟨q, s⟩ := h
    intro hnd
    rw [List.map_cons, List.nodup_cons] at hnd
    obtain ⟨hq, hrest⟩ := hnd
    by_cases hqp : q = p
    · subst hqp
      cases s with
      | none =>
        rw [show flushH ((q, none) :: rest) = flushH rest from rfl,
          flushH_not_mem q rest hq]
        simp [lookupH]
      | some d =>
        rw [show flushH ((q, some d) :: rest) = (d, q) :: flushH rest from rfl,
          List.filter_cons]
        simp [lookupH, flushH_not_mem q rest hq]
    · cases s with
      | none =>
        rw [show flushH ((q, none) :: rest) = flushH rest from rfl, ih hrest]
        simp [lookupH, hqp]
      | some d =>
        rw [show flushH ((q, some d) :: rest) = (d, q) :: flushH rest from rfl,
          List.filter_cons]
        simp only [decide_eq_true_eq]
        rw [if_neg hqp, ih hrest]
        simp [lookupH, hqp]

theorem simplifyGo_proj (latency : Nat) (p : Filename) :
    ∀ (evs : List (Nat × Filename)) (hs : List (Filename × Option Nat)),
      (hs.map (fun h => h.1)).Nodup →
      List.Pairwise (fun a b => a.1 ≤ b.1) evs →
      ((simplifyGo latency true hs evs).filter (fun e => e.2 = p)).map (fun e => e.1)
        = drun latency (lookupH hs p)
            ((evs.filter (fun e => e.2 = p)).map (fun e => e.1)) := by
  intro evs
  induction evs with
  | nil =>
    intro hs hnd _
    rw [show simplifyGo latency true hs [] = flushH hs from rfl, flushH_filter p hs hnd]
    cases lookupH hs p with
    | none => rfl
    | some d => rfl
  | cons e rest ih =>
    obtain ⟨t, f⟩ := e
    intro hs hnd hpw
    rw [List.pairwise_cons] at hpw
    obtain ⟨hts, hrest⟩ := hpw
    have hnd' : ((setH (fireAllH t hs) f (some (t + latency))).map (fun h => h.1)).Nodup := by
      apply setH_keys_nodup
      rw [fireAllH_keys]
      exact hnd
    have hih := ih (setH (fireAllH t hs) f (some (t + latency))) hnd' hrest
    rw [show simplifyGo latency true hs ((t, f) :: rest)
          = fireAllE t hs ++
            simplifyGo latency true (setH (fireAllH t hs) f (some (t + latency))) rest
        from rfl]
    rw [List.filter_append, List.map_append, hih, fireAllE_filter t p hs hnd]
    have hR : ∀ x ∈ (rest.filter (fun e => e.2 = p)).map (fun e => e.1), t ≤ x := by
      intro x hx
      rw [List.mem_map] at hx
      obtain ⟨e', he', rfl⟩ := hx
      exact hts e' (List.mem_of_mem_filter he')
    by_cases hfp : f = p
    · subst hfp
      rw [lookupH_setH_self]
      rw [show ((t, f) :: rest).filter (fun e => e.2 = f)
            = (t, f) :: rest.filter (fun e => e.2 = f) by simp [List.filter_cons]]
      rw [List.map_cons]
      cases hl : lookupH hs f with
      | none => rfl
      | some d =>
        show (if d < t then [d] else []) ++
            drun latency (some (t + latency))
              ((rest.filter (fun e => e.2 = f)).map (fun e => e.1))
          = drun latency (some d)
              (t :: (rest.filter (fun e => e.2 = f)).map (fun e => e.1))
        by_cases hdt : d < t
        · rw [if_pos hdt, drun, if_pos hdt]
          rfl
        · rw [if_neg hdt, drun, if_neg hdt]
          rfl
    · rw [lookupH_setH_other f p (some (t + latency)) (fun h => hfp h.symm),
        lookupH_fireAllH t p hs]
      rw [show ((t, f) :: rest).filter (fun e => e.2 = p)
            = rest.filter (fun e => e.2 = p) by simp [List.filter_cons, hfp]]
      cases hl : lookupH hs p with
      | none => rfl
      | some d =>
        show (if d < t then [d] else []) ++
            drun latency (if d < t then none else some d)
              ((rest.filter (fun e => e.2 = p)).map (fun e => e.1))
          = drun latency (some d)
              ((rest.filter (fun e => e.2 = p)).map (fun e => e.1))
        by_cases hdt : d < t
        · rw [if_pos hdt, if_pos hdt,
            drun_fired latency d t ((rest.filter (fun e => e.2 = p)).map (fun e => e.1)) hR hdt]
          rfl
        · rw [if_neg hdt, if_neg hdt]
          rfl

/-- C6: the dispatch stage delivers each raw event only to the debounce unit
keyed by the event's own path, so events on other paths never reset or
cancel a given path's pending timer: for any path p, the settled
notifications the whole stage emits for p are exactly what p's own debounce
unit emits when fed only p's events (times taken nondecreasing, as they
arrive on the event channel). -/
theorem debouncer_path_independence (latency : Nat) (evs : List (Nat × Filename))
    (p : Filename) (hsort : List.Pairwise (fun a b => a.1 ≤ b.1) evs) :
    ((simplifyRun latency evs).filter (fun e => e.2 = p)).map (fun e => e.1)
      = debounce latency ((evs.filter (fun e => e.2 = p)).map (fun e => e.1)) :=
  simplifyGo_proj latency p evs [] List.nodup_nil hsort

theorem debouncer_path_independence_witness :
    ((simplifyRun 10 [(0, "a"), (3, "b"), (5, "a")]).filter
        (fun e => e.2 = "a")).map (fun e => e.1)
      = debounce 10 (([(0, "a"), (3, "b"), (5, "a")].filter
          (fun e => e.2 = ("a" : Filename))).map (fun e => e.1)) :=
  debouncer_path_independence 10 [(0, "a"), (3, "b"), (5, "a")] "a"
    (by simp [List.pairwise_cons])

end Watcher
